import Mathlib

/-!
Shallow embedding of the pixel-artist core (src/pixel_artist/core.py, with the
historical duplicates src/pixel_artist/pixel_artist.py and src/pixel_art.py),
together with proofs about the block-dimension solver, the grid mapper and the
color reducer.
-/

namespace PixelArtist

/-!
## Block Dimension Solver

`PixelArt.find_block_dim` (src/pixel_artist/core.py, lines 101-129):

    candidate = 0
    block_dim = 1
    counter = 0
    while counter != self.granularity:
        candidate += 1
        while dim % candidate != 0:
            candidate += 1
            if candidate > dim:
                counter = self.granularity - 1
                break
        if candidate <= dim:
            block_dim = candidate
        counter += 1
    return block_dim

The inner `while` is `innerScan` below: it returns the final candidate value and
a flag telling whether the `counter = granularity - 1` override fired.  The
outer loop is `findLoop`, written with explicit fuel so that running out of fuel
is observable as `none` (termination is then a theorem, not an assumption).
-/

/-- Inner `while dim % candidate != 0` loop of `find_block_dim`: keep
incrementing `candidate`; if it exceeds `dim`, break with the override flag set
(the source then forces `counter = granularity - 1`). -/
def innerScan (dim candidate : Nat) : Nat × Bool :=
  if dim % candidate ≠ 0 then
    if candidate + 1 > dim then (candidate + 1, true)
    else innerScan dim (candidate + 1)
  else (candidate, false)
termination_by dim + 1 - candidate
decreasing_by omega

/-- Outer `while counter != granularity` loop of `find_block_dim`, with fuel.
Each iteration increments `candidate`, runs the inner scan, records the
candidate as `block_dim` when it is `≤ dim`, applies the counter override when
the inner scan overran `dim`, and increments the counter. -/
def findLoop (dim granularity : Nat) (fuel candidate block_dim counter : Nat) : Option Nat :=
  if counter = granularity then some block_dim
  else
    match fuel with
    | 0 => none
    | f + 1 =>
      let r := innerScan dim (candidate + 1)
      findLoop dim granularity f r.1
        (if r.1 ≤ dim then r.1 else block_dim)
        ((if r.2 then granularity - 1 else counter) + 1)

/-- `PixelArt.find_block_dim(dim)` with the instance attribute `granularity`
made explicit.  `granularity` units of fuel always suffice (proved below), so a
`some` result is exactly what the Python loop returns. -/
def find_block_dim (dim granularity : Nat) : Option Nat :=
  findLoop dim granularity granularity 0 1 0

/-- The divisors of `dim` lying in `[1, dim]`, in increasing order.  Used to
state what `find_block_dim` computes. -/
def divisorsList (dim : Nat) : List Nat :=
  (List.range' 1 dim).filter (fun c => decide (dim % c = 0))

/-!
## Grid Mapper / Block Extractor

`PixelArt.__init__` (lines 79-98) sets `grid_width = width // block_width`,
`grid_height = height // block_height`, `nblocks = grid_width * grid_height`.
`PixelArt.get_bbox_at_pos` (lines 174-194) maps a linear block index to its
pixel bounding box.
-/

/-- `self.grid_width = self.width // self.block_width`. -/
def grid_width (width block_width : Nat) : Nat := width / block_width

/-- `self.grid_height = self.height // self.block_height`. -/
def grid_height (height block_height : Nat) : Nat := height / block_height

/-- `self.nblocks = self.grid_width * self.grid_height`. -/
def nblocks (gw gh : Nat) : Nat := gw * gh

/-- `PixelArt.get_bbox_at_pos`:
`i = (pos % grid_width) * block_width`, `j = (pos // grid_width) * block_height`,
returning `(i, j, i + block_width, j + block_height)`. -/
def get_bbox_at_pos (gw bw bh pos : Nat) : Nat × Nat × Nat × Nat :=
  ((pos % gw) * bw, (pos / gw) * bh, (pos % gw) * bw + bw, (pos / gw) * bh + bh)

/-- Pixel `(x, y)` lies inside a bounding box `(left, top, right, bottom)`,
with `right` and `bottom` exclusive (PIL box convention used by `crop`/`paste`). -/
def inBBox (b : Nat × Nat × Nat × Nat) (x y : Nat) : Prop :=
  b.1 ≤ x ∧ x < b.2.2.1 ∧ b.2.1 ≤ y ∧ y < b.2.2.2

/-!
## Color Reducer

`PixelArt.avg_color` (lines 196-225) accumulates each channel as
`avg += p[c] / size` over the block's pixels, then, when a palette is present,
linearly scans it keeping the entry with strictly smallest `colordiff` to the
mean.  Colors are modelled as rational triples (the Python code uses floats;
the accumulation and comparison structure is what the claims are about).
A palette of `[]` models `self.palette is None` (24-bit mode).
-/

/-- A color: three channel values. -/
abbrev Color := ℚ × ℚ × ℚ

/-- `PixelArt.colordiff_rgb` (lines 244-262): sum of squared channel deltas. -/
def colordiff_rgb (pixel1 pixel2 : Color) : ℚ :=
  (pixel1.1 - pixel2.1) ^ 2 + (pixel1.2.1 - pixel2.2.1) ^ 2 + (pixel1.2.2 - pixel2.2.2) ^ 2

/-- The accumulation loop of `avg_color`:
`avg_r += p[0] / size; avg_g += p[1] / size; avg_b += p[2] / size` over all
pixels, starting from `(0.0, 0.0, 0.0)`, where `size` is the total pixel count. -/
def avg_color_mean (pixels : List (Nat × Nat × Nat)) : Color :=
  let size : ℚ := (pixels.length : ℚ)
  pixels.foldl
    (fun acc p =>
      (acc.1 + (p.1 : ℚ) / size, acc.2.1 + (p.2.1 : ℚ) / size, acc.2.2 + (p.2.2 : ℚ) / size))
    (0, 0, 0)

/-- The palette scan of `avg_color`:
`for i in range(1, len(self.palette)): if candidate_diff < best_diff: update`.
`l` is the not-yet-visited tail of the palette, `best`/`best_diff` the current
best entry and its difference to the mean `avg`. -/
def best_palette_scan (colordiff : Color → Color → ℚ) (avg : Color) :
    List Color → Color → ℚ → Color
  | [], best, _ => best
  | p :: rest, best, best_diff =>
    if colordiff p avg < best_diff then
      best_palette_scan colordiff avg rest p (colordiff p avg)
    else
      best_palette_scan colordiff avg rest best best_diff

/-- `PixelArt.avg_color`: compute the mean color of the block's pixels; if a
palette is loaded (`palette ≠ []`), return the palette entry with the strictly
smallest `colordiff` to the mean (first entry wins ties), otherwise return the
mean itself. -/
def avg_color (palette : List Color) (colordiff : Color → Color → ℚ)
    (pixels : List (Nat × Nat × Nat)) : Color :=
  let m := avg_color_mean pixels
  match palette with
  | [] => m
  | p0 :: rest => best_palette_scan colordiff m rest p0 (colordiff p0 m)

/-- Python's built-in `round`: round half to even. -/
def roundHalfEven (q : ℚ) : ℤ :=
  if q - (⌊q⌋ : ℚ) < 1 / 2 then ⌊q⌋
  else if (1 : ℚ) / 2 < q - (⌊q⌋ : ℚ) then ⌊q⌋ + 1
  else if ⌊q⌋ % 2 = 0 then ⌊q⌋ else ⌊q⌋ + 1

/-- Python's `int()` conversion on a rational value: truncation toward zero. -/
def intTrunc (q : ℚ) : ℤ :=
  if 0 ≤ q then ⌊q⌋ else -⌊-q⌋

/-- The per-block output color in `PixelArt.pixelate` (lines 131-157) with no
palette: `tuple(round(c) for c in self.avg_color(block))`. -/
def pixelate_block_color (pixels : List (Nat × Nat × Nat)) : ℤ × ℤ × ℤ :=
  let a := avg_color [] colordiff_rgb pixels
  (roundHalfEven a.1, roundHalfEven a.2.1, roundHalfEven a.2.2)

/-- The 24-bit branch of `avg_color` in the historical duplicates
(src/pixel_art.py lines 85-94 and src/pixel_artist/pixel_artist.py lines
99-124): `return int(avg_r), int(avg_g), int(avg_b)` — truncation, not
rounding. -/
def avg_color_legacy (pixels : List (Nat × Nat × Nat)) : ℤ × ℤ × ℤ :=
  let a := avg_color_mean pixels
  (intTrunc a.1, intTrunc a.2.1, intTrunc a.2.2)

/-!
## Theorems

First an API for `divisorsList`, then the characterization of `innerScan` and
of the full solver loop, and finally the claim theorems.
-/

theorem getD_of_lt (l : List Nat) (i d : Nat) (h : i < l.length) : l.getD i d = l[i] := by
  simp [List.getD_eq_getElem?_getD, List.getElem?_eq_getElem h]

theorem getD_of_le (l : List Nat) (i d : Nat) (h : l.length ≤ i) : l.getD i d = d := by
  simp [List.getD_eq_getElem?_getD, List.getElem?_eq_none h]

theorem mem_divisorsList (dim c : Nat) :
    c ∈ divisorsList dim ↔ 1 ≤ c ∧ c ≤ dim ∧ dim % c = 0 := by
  simp only [divisorsList, List.mem_filter, List.mem_range'_1, decide_eq_true_eq]
  omega

theorem divisorsList_pairwise (dim : Nat) : (divisorsList dim).Pairwise (· < ·) :=
  (List.pairwise_lt_range' 1 dim).filter _

theorem divisorsList_strict (dim : Nat) {i j : Nat} (hij : i < j)
    (hj : j < (divisorsList dim).length) :
    (divisorsList dim)[i] < (divisorsList dim)[j] :=
  List.pairwise_iff_getElem.1 (divisorsList_pairwise dim) i j (Nat.lt_trans hij hj) hj hij

theorem divisorsList_mono (dim : Nat) {i j : Nat} (hij : i ≤ j)
    (hj : j < (divisorsList dim).length) :
    (divisorsList dim)[i] ≤ (divisorsList dim)[j] := by
  rcases Nat.lt_or_ge i j with h | h
  · exact Nat.le_of_lt (divisorsList_strict dim h hj)
  · have : i = j := Nat.le_antisymm hij h
    subst this
    exact Nat.le_refl _

theorem one_mem_divisorsList (dim : Nat) (hdim : 1 ≤ dim) : 1 ∈ divisorsList dim :=
  (mem_divisorsList dim 1).2 ⟨Nat.le_refl 1, hdim, Nat.mod_one dim⟩

theorem dim_mem_divisorsList (dim : Nat) (hdim : 1 ≤ dim) : dim ∈ divisorsList dim :=
  (mem_divisorsList dim dim).2 ⟨hdim, Nat.le_refl dim, Nat.mod_self dim⟩

theorem divisorsList_length_pos (dim : Nat) (hdim : 1 ≤ dim) :
    0 < (divisorsList dim).length :=
  List.length_pos.2 (List.ne_nil_of_mem (one_mem_divisorsList dim hdim))

theorem divisorsList_getElem_mem (dim i : Nat) (h : i < (divisorsList dim).length) :
    1 ≤ (divisorsList dim)[i] ∧ (divisorsList dim)[i] ≤ dim ∧
      dim % (divisorsList dim)[i] = 0 :=
  (mem_divisorsList dim _).1 (List.getElem_mem h)

theorem divisorsList_head (dim : Nat) (hdim : 1 ≤ dim)
    (h0 : 0 < (divisorsList dim).length) : (divisorsList dim)[0] = 1 := by
  obtain ⟨k, hk, hk1⟩ := List.mem_iff_getElem.1 (one_mem_divisorsList dim hdim)
  rcases Nat.eq_zero_or_pos k with rfl | hkpos
  · exact hk1
  · have hlt := divisorsList_strict dim hkpos hk
    have h1 := (divisorsList_getElem_mem dim 0 h0).1
    omega

theorem divisorsList_last (dim : Nat) (hdim : 1 ≤ dim)
    (hlen : 0 < (divisorsList dim).length) :
    (divisorsList dim)[(divisorsList dim).length - 1] = dim := by
  obtain ⟨k, hk, hkdim⟩ := List.mem_iff_getElem.1 (dim_mem_divisorsList dim hdim)
  rcases Nat.lt_or_ge k ((divisorsList dim).length - 1) with hklt | hkge
  · have hlt := divisorsList_strict dim hklt (by omega)
    have hle := (divisorsList_getElem_mem dim ((divisorsList dim).length - 1) (by omega)).2.1
    omega
  · have : k = (divisorsList dim).length - 1 := by omega
    subst this
    exact hkdim

/-- Any divisor of `dim` lying strictly between consecutive entries of
`divisorsList dim` is impossible: a divisor `e` with `e < (divisorsList dim)[i]`
occurs at some index `< i`. -/
theorem divisorsList_no_gap (dim e i : Nat) (hi : i < (divisorsList dim).length)
    (he : e ∈ divisorsList dim) (hlt : e < (divisorsList dim)[i]) :
    ∃ k, ∃ hk : k < i, e = (divisorsList dim)[k] := by
  obtain ⟨k, hk, hke⟩ := List.mem_iff_getElem.1 he
  refine ⟨k, ?_, hke.symm⟩
  by_contra hge
  have hik : i ≤ k := by omega
  have := divisorsList_mono dim hik hk
  omega

/-- If `d` is the least divisor of `dim` that is `≥ c` (and `d ≤ dim`), the
inner scan started at `c` stops exactly at `d` without the counter override. -/
theorem innerScan_eq_of_least (dim d : Nat) (hddim : d ≤ dim) (hdvd : dim % d = 0) :
    ∀ n c, d - c = n → c ≤ d → (∀ e, c ≤ e → e < d → dim % e ≠ 0) →
      innerScan dim c = (d, false) := by
  intro n
  induction n with
  | zero =>
    intro c hn hc _hleast
    have hcd : c = d := by omega
    subst hcd
    rw [innerScan]
    simp [hdvd]
  | succ k ih =>
    intro c hn hc hleast
    have hcd : c < d := by omega
    have hmod : dim % c ≠ 0 := hleast c (Nat.le_refl c) hcd
    have hnotover : ¬(c + 1 > dim) := by omega
    rw [innerScan]
    simp only [hmod, if_true, hnotover, if_false, ite_true, ite_false, ne_eq,
      not_false_eq_true]
    exact ih (c + 1) (by omega) (by omega) (fun e he helt => hleast e (by omega) helt)

/-- Starting the inner scan past `dim` immediately overruns: the candidate is
incremented once more and the counter override fires. -/
theorem innerScan_of_gt (dim c : Nat) (hdim : 1 ≤ dim) (hc : dim < c) :
    innerScan dim c = (c + 1, true) := by
  have hmod : dim % c ≠ 0 := by
    rw [Nat.mod_eq_of_lt hc]
    omega
  rw [innerScan]
  simp only [hmod, ne_eq, not_false_eq_true, if_true, ite_true]
  have : c + 1 > dim := by omega
  simp [this]

/-- Invariant proof for the outer loop: starting from the state reached after
`i` iterations (candidate and best block dimension both equal to the `i`-th
divisor, or the initial `0`/`1` state for `i = 0`), with `g - i` units of fuel,
the loop returns the `g`-th divisor of `dim` in increasing order, or `dim`
itself once `g` exceeds the number of divisors. -/
theorem findLoop_inv (dim g : Nat) (hdim : 1 ≤ dim) :
    ∀ fuel i cand bd, fuel = g - i → i < g → i ≤ (divisorsList dim).length →
      (i = 0 → cand = 0 ∧ bd = 1) →
      (∀ j, i = j + 1 → ∃ h : j < (divisorsList dim).length,
        cand = (divisorsList dim)[j] ∧ bd = cand) →
      findLoop dim g fuel cand bd i = some ((divisorsList dim).getD (g - 1) dim) := by
  intro fuel
  induction fuel with
  | zero =>
    intro i cand bd hfuel hig _ _ _
    omega
  | succ f ih =>
    intro i cand bd hfuel hig hilen h0 hsucc
    have hine : i ≠ g := by omega
    rw [findLoop]
    simp only [hine, if_false, ite_false]
    rcases Nat.lt_or_ge i (divisorsList dim).length with hA | hB
    · -- Case A: another divisor remains; the scan stops at the `i`-th divisor.
      have hdi := divisorsList_getElem_mem dim i hA
      have hcand_lt : cand < (divisorsList dim)[i] := by
        rcases Nat.eq_zero_or_pos i with rfl | hipos
        · have := (h0 rfl).1
          omega
        · obtain ⟨j, hj⟩ : ∃ j, i = j + 1 := ⟨i - 1, by omega⟩
          obtain ⟨hjlen, hcandj, _⟩ := hsucc j hj
          have := divisorsList_strict dim (show j < i by omega) hA
          omega
      have hscan : innerScan dim (cand + 1) = ((divisorsList dim)[i], false) := by
        apply innerScan_eq_of_least dim _ hdi.2.1 hdi.2.2 _ (cand + 1) rfl (by omega)
        intro e he helt hemod
        have hemem : e ∈ divisorsList dim :=
          (mem_divisorsList dim e).2 ⟨by omega, by omega, hemod⟩
        obtain ⟨k, hki, hke⟩ := divisorsList_no_gap dim e i hA hemem helt
        rcases Nat.eq_zero_or_pos i with rfl | hipos
        · omega
        · obtain ⟨j, hj⟩ : ∃ j, i = j + 1 := ⟨i - 1, by omega⟩
          obtain ⟨hjlen, hcandj, _⟩ := hsucc j hj
          have hkj : k ≤ j := by omega
          have := divisorsList_mono dim hkj hjlen
          omega
      rw [hscan]
      simp only [hdi.2.1, if_true, Bool.false_eq_true, ite_false, ite_true]
      rcases Nat.eq_or_lt_of_le (show i + 1 ≤ g by omega) with hend | hcont
      · rw [findLoop.eq_def]
        simp only [hend, if_true, ite_true]
        have hgi : g - 1 = i := by omega
        rw [hgi, getD_of_lt _ _ _ hA]
      · exact ih (i + 1) _ _ (by omega) hcont (by omega)
          (by omega)
          (fun j hj => by
            have : j = i := by omega
            subst this
            exact ⟨hA, rfl, rfl⟩)
    · -- Case B: all divisors exhausted; the scan overruns and the loop stops
      -- with `block_dim = dim`.
      have hilen' : i = (divisorsList dim).length := by omega
      have hipos : 0 < i := by
        have := divisorsList_length_pos dim hdim
        omega
      obtain ⟨j, hj⟩ : ∃ j, i = j + 1 := ⟨i - 1, by omega⟩
      obtain ⟨hjlen, hcandj, hbd⟩ := hsucc j hj
      have hjlast : j = (divisorsList dim).length - 1 := by omega
      have hcand_dim : cand = dim := by
        rw [hcandj]
        subst hjlast
        exact divisorsList_last dim hdim (by omega)
      have hscan : innerScan dim (cand + 1) = (cand + 2, true) := by
        have := innerScan_of_gt dim (cand + 1) hdim (by omega)
        rw [this]
      rw [hscan]
      have hnotle : ¬(cand + 2 ≤ dim) := by omega
      simp only [hnotle, if_false, ite_true, ite_false]
      rw [findLoop.eq_def]
      have hg1 : g - 1 + 1 = g := by omega
      simp only [hg1, if_true, ite_true]
      rw [getD_of_le _ _ _ (by omega), hbd, hcand_dim]

/-- What `find_block_dim` computes: the `granularity`-th divisor of `dim` in
increasing order, saturating at `dim` when `granularity` exceeds the number of
divisors. -/
theorem find_block_dim_eq (dim g : Nat) (hdim : 1 ≤ dim) (hg : 1 ≤ g) :
    find_block_dim dim g = some ((divisorsList dim).getD (g - 1) dim) := by
  unfold find_block_dim
  exact findLoop_inv dim g hdim g 0 0 1 (by omega) (by omega) (Nat.zero_le _)
    (fun _ => ⟨rfl, rfl⟩) (fun j hj => absurd hj (by omega))

theorem divisorsList_nodup (dim : Nat) : (divisorsList dim).Nodup :=
  (divisorsList_pairwise dim).imp Nat.ne_of_lt

theorem divisorsList_toFinset (dim : Nat) (hdim : 1 ≤ dim) :
    (divisorsList dim).toFinset = Nat.divisors dim := by
  ext c
  simp only [List.mem_toFinset, mem_divisorsList, Nat.mem_divisors]
  constructor
  · rintro ⟨h1, h2, h3⟩
    exact ⟨Nat.dvd_of_mod_eq_zero h3, by omega⟩
  · rintro ⟨h1, h2⟩
    have hpos : 0 < c := Nat.pos_of_dvd_of_pos h1 (by omega)
    exact ⟨hpos, Nat.le_of_dvd (by omega) h1, Nat.mod_eq_zero_of_dvd h1⟩

theorem divisorsList_length_eq_card (dim : Nat) (hdim : 1 ≤ dim) :
    (divisorsList dim).length = (Nat.divisors dim).card := by
  rw [← divisorsList_toFinset dim hdim,
    List.toFinset_card_of_nodup (divisorsList_nodup dim)]

theorem divisorsList_getD_mono (dim : Nat) {i j : Nat} (hij : i ≤ j) :
    (divisorsList dim).getD i dim ≤ (divisorsList dim).getD j dim := by
  rcases Nat.lt_or_ge j (divisorsList dim).length with hj | hj
  · rw [getD_of_lt _ _ _ (by omega), getD_of_lt _ _ _ hj]
    exact divisorsList_mono dim hij hj
  · rw [getD_of_le _ _ _ hj]
    rcases Nat.lt_or_ge i (divisorsList dim).length with hi | hi
    · rw [getD_of_lt _ _ _ hi]
      exact (divisorsList_getElem_mem dim i hi).2.1
    · rw [getD_of_le _ _ _ hi]

theorem divisorsList_getD_last (dim : Nat) (hdim : 1 ≤ dim) :
    (divisorsList dim).getD ((divisorsList dim).length - 1) dim = dim := by
  have hlen := divisorsList_length_pos dim hdim
  rw [getD_of_lt _ _ _ (by omega)]
  exact divisorsList_last dim hdim hlen

theorem divisorsList_getD_saturate (dim g : Nat) (hdim : 1 ≤ dim)
    (hg : (divisorsList dim).length ≤ g) :
    (divisorsList dim).getD (g - 1) dim = dim := by
  have hlen := divisorsList_length_pos dim hdim
  rcases Nat.lt_or_ge (g - 1) (divisorsList dim).length with h | h
  · have hidx : g - 1 = (divisorsList dim).length - 1 := by omega
    rw [hidx]
    exact divisorsList_getD_last dim hdim
  · rw [getD_of_le _ _ _ h]

theorem divisorsList_getD_spec (dim g : Nat) (hdim : 1 ≤ dim) :
    1 ≤ (divisorsList dim).getD (g - 1) dim ∧
      (divisorsList dim).getD (g - 1) dim ≤ dim ∧
      dim % ((divisorsList dim).getD (g - 1) dim) = 0 := by
  rcases Nat.lt_or_ge (g - 1) (divisorsList dim).length with h | h
  · rw [getD_of_lt _ _ _ h]
    have := divisorsList_getElem_mem dim (g - 1) h
    exact ⟨this.1, this.2.1, this.2.2⟩
  · rw [getD_of_le _ _ _ h]
    exact ⟨hdim, Nat.le_refl dim, Nat.mod_self dim⟩

/-- C1 counterexample: the claim states `find_block_dim(12, 1) = 2`
(the smallest divisor greater than 1), but the code returns `1`: the first
outer-loop iteration accepts candidate `1` (which always divides `dim`) and
immediately reaches the requested granularity. -/
theorem find_block_dim_twelve_one : find_block_dim 12 1 = some 1 ∧
    find_block_dim 12 1 ≠ some 2 := by
  have h : find_block_dim 12 1 = some 1 :=
    (find_block_dim_eq 12 1 (by norm_num) (by norm_num)).trans (by decide)
  exact ⟨h, by rw [h]; decide⟩

/-- C1 (amended): for every `dim ≥ 1`, `find_block_dim(dim, 1)` returns `1`,
the smallest divisor of `dim` — not the smallest divisor greater than 1. -/
theorem find_block_dim_granularity_one (dim : Nat) (hdim : 1 ≤ dim) :
    find_block_dim dim 1 = some 1 := by
  rw [find_block_dim_eq dim 1 hdim (Nat.le_refl 1)]
  have hlen := divisorsList_length_pos dim hdim
  rw [show (1 : Nat) - 1 = 0 from rfl, getD_of_lt _ _ _ hlen]
  exact congrArg some (divisorsList_head dim hdim hlen)

/-- Witness for the amended C1 at `dim = 9`. -/
theorem find_block_dim_granularity_one_witness :
    1 ≤ 9 ∧ find_block_dim 9 1 = some 1 :=
  ⟨by decide, find_block_dim_granularity_one 9 (by decide)⟩

/-- C2: for every `dim ≥ 1` and `granularity ≥ 1`, the returned block
dimension divides `dim` and satisfies `1 ≤ block_dim ≤ dim`. -/
theorem find_block_dim_divisibility (dim g : Nat) (hdim : 1 ≤ dim) (hg : 1 ≤ g) :
    ∃ b, find_block_dim dim g = some b ∧ dim % b = 0 ∧ 1 ≤ b ∧ b ≤ dim := by
  refine ⟨(divisorsList dim).getD (g - 1) dim, find_block_dim_eq dim g hdim hg, ?_⟩
  have := divisorsList_getD_spec dim g hdim
  exact ⟨this.2.2, this.1, this.2.1⟩

/-- Witness for C2 at `dim = 12`, `granularity = 3`. -/
theorem find_block_dim_divisibility_witness :
    1 ≤ 12 ∧ 1 ≤ 3 ∧ ∃ b, find_block_dim 12 3 = some b ∧ 12 % b = 0 ∧ 1 ≤ b ∧ b ≤ 12 :=
  ⟨by decide, by decide, find_block_dim_divisibility 12 3 (by decide) (by decide)⟩

/-- C3: for a fixed `dim ≥ 1`, `find_block_dim(dim, g)` is non-decreasing in
`g`, and equals `dim` for every `g` at or beyond the number of divisors of
`dim`. -/
theorem find_block_dim_monotone_saturates (dim : Nat) (hdim : 1 ≤ dim) :
    (∀ g g' b b', 1 ≤ g → g ≤ g' → find_block_dim dim g = some b →
      find_block_dim dim g' = some b' → b ≤ b') ∧
    (∀ g, (Nat.divisors dim).card ≤ g → find_block_dim dim g = some dim) := by
  constructor
  · intro g g' b b' hg hgg' hb hb'
    rw [find_block_dim_eq dim g hdim hg] at hb
    rw [find_block_dim_eq dim g' hdim (by omega)] at hb'
    have hmono := divisorsList_getD_mono (i := g - 1) (j := g' - 1) dim (by omega)
    simp only [Option.some_inj] at hb hb'
    omega
  · intro g hcard
    have hlen : (divisorsList dim).length ≤ g := by
      rw [divisorsList_length_eq_card dim hdim]
      exact hcard
    have hg : 1 ≤ g := Nat.le_trans (divisorsList_length_pos dim hdim) hlen
    rw [find_block_dim_eq dim g hdim hg]
    exact congrArg some (divisorsList_getD_saturate dim g hdim hlen)

/-- Witness for C3 at `dim = 12`. -/
theorem find_block_dim_monotone_saturates_witness :
    1 ≤ 12 ∧
    ((∀ g g' b b', 1 ≤ g → g ≤ g' → find_block_dim 12 g = some b →
      find_block_dim 12 g' = some b' → b ≤ b') ∧
    (∀ g, (Nat.divisors 12).card ≤ g → find_block_dim 12 g = some 12)) :=
  ⟨by decide, find_block_dim_monotone_saturates 12 (by decide)⟩

/-- C4: `find_block_dim` terminates for every `dim ≥ 1` and `granularity ≥ 1`:
when the running candidate exceeds `dim` the inner scan stops with the
override flag set (forcing the counter to `granularity - 1`, so the outer loop
exits one step later), and with `granularity` units of fuel the loop always
produces a result (`isSome`). -/
theorem find_block_dim_terminates (dim g : Nat) (hdim : 1 ≤ dim) (hg : 1 ≤ g) :
    (∀ c, dim < c → innerScan dim c = (c + 1, true)) ∧
      (find_block_dim dim g).isSome := by
  refine ⟨fun c hc => innerScan_of_gt dim c hdim hc, ?_⟩
  rw [find_block_dim_eq dim g hdim hg]
  rfl

/-- Witness for C4 at `dim = 10`, `granularity = 5`. -/
theorem find_block_dim_terminates_witness :
    1 ≤ 10 ∧ 1 ≤ 5 ∧
    ((∀ c, 10 < c → innerScan 10 c = (c + 1, true)) ∧
      (find_block_dim 10 5).isSome) :=
  ⟨by decide, by decide, find_block_dim_terminates 10 5 (by decide) (by decide)⟩

/-- C10: for a prime `dim`, granularity 1 yields block dimension 1 and every
granularity `≥ 2` yields `dim` (saturation, since a prime has exactly the two
divisors 1 and `dim`). -/
theorem find_block_dim_prime (dim : Nat) (hp : Nat.Prime dim) :
    find_block_dim dim 1 = some 1 ∧
      ∀ g, 2 ≤ g → find_block_dim dim g = some dim := by
  have hdim : 1 ≤ dim := Nat.le_of_lt hp.one_lt
  have hlen : (divisorsList dim).length = 2 := by
    rw [divisorsList_length_eq_card dim hdim, hp.divisors]
    rw [Finset.card_insert_of_not_mem (by
      simp only [Finset.mem_singleton]
      exact fun h => Nat.lt_irrefl 1 (h ▸ hp.one_lt)), Finset.card_singleton]
  refine ⟨find_block_dim_granularity_one dim hdim, fun g hge => ?_⟩
  rw [find_block_dim_eq dim g hdim (by omega)]
  exact congrArg some (divisorsList_getD_saturate dim g hdim (by omega))

/-- Witness for C10 at the prime `dim = 7`. -/
theorem find_block_dim_prime_witness :
    Nat.Prime 7 ∧
    (find_block_dim 7 1 = some 1 ∧ ∀ g, 2 ≤ g → find_block_dim 7 g = some 7) :=
  ⟨by norm_num, find_block_dim_prime 7 (by norm_num)⟩

/-!
### Grid mapper theorems
-/

theorem div_eq_iff_between (x c k : Nat) (hk : 0 < k) :
    x / k = c ↔ c * k ≤ x ∧ x < c * k + k := by
  constructor
  · rintro rfl
    refine ⟨Nat.div_mul_le_self x k, ?_⟩
    have h1 := Nat.div_add_mod x k
    have h2 := Nat.mod_lt x hk
    calc x = k * (x / k) + x % k := h1.symm
    _ < k * (x / k) + k := Nat.add_lt_add_left h2 _
    _ = x / k * k + k := by rw [Nat.mul_comm]
  · rintro ⟨hlo, hhi⟩
    exact Nat.div_eq_of_lt_le hlo (by rw [Nat.succ_mul]; omega)

theorem inBBox_get_bbox_iff (gw bw bh n x y : Nat) (hbw : 0 < bw) (hbh : 0 < bh) :
    inBBox (get_bbox_at_pos gw bw bh n) x y ↔ x / bw = n % gw ∧ y / bh = n / gw := by
  unfold inBBox get_bbox_at_pos
  rw [div_eq_iff_between x (n % gw) bw hbw, div_eq_iff_between y (n / gw) bh hbh]
  tauto

/-- Row-major tiling: every pixel of the `gw * bw` by `gh * bh` rectangle lies
in exactly one of the `gw * gh` bounding boxes. -/
theorem bbox_tiling (gw gh bw bh x y : Nat) (hbw : 0 < bw) (hbh : 0 < bh)
    (hgw : 0 < gw) (hx : x < gw * bw) (hy : y < gh * bh) :
    ∃! n, n < nblocks gw gh ∧ inBBox (get_bbox_at_pos gw bw bh n) x y := by
  have hxb : x / bw < gw := (Nat.div_lt_iff_lt_mul hbw).2 hx
  have hyb : y / bh < gh := (Nat.div_lt_iff_lt_mul hbh).2 hy
  refine ⟨y / bh * gw + x / bw, ⟨?_, ?_⟩, ?_⟩
  · show y / bh * gw + x / bw < nblocks gw gh
    unfold nblocks
    calc y / bh * gw + x / bw < y / bh * gw + gw := Nat.add_lt_add_left hxb _
    _ = (y / bh + 1) * gw := (Nat.succ_mul _ _).symm
    _ ≤ gh * gw := Nat.mul_le_mul_right gw hyb
    _ = gw * gh := Nat.mul_comm gh gw
  · rw [inBBox_get_bbox_iff gw bw bh _ x y hbw hbh]
    constructor
    · rw [Nat.mul_comm (y / bh) gw, Nat.mul_add_mod gw (y / bh) (x / bw)]
      exact (Nat.mod_eq_of_lt hxb).symm
    · rw [Nat.mul_comm (y / bh) gw, Nat.mul_add_div hgw (y / bh) (x / bw),
        Nat.div_eq_of_lt hxb, Nat.add_zero]
  · rintro n ⟨_, hmem⟩
    rw [inBBox_get_bbox_iff gw bw bh n x y hbw hbh] at hmem
    obtain ⟨h1, h2⟩ := hmem
    calc n = gw * (n / gw) + n % gw := (Nat.div_add_mod n gw).symm
    _ = n / gw * gw + n % gw := by rw [Nat.mul_comm]
    _ = y / bh * gw + x / bw := by rw [h1, h2]

/-- Shared helper: the hypotheses of the grid claims, extracted from
`find_block_dim` results. -/
theorem find_block_dim_divides (dim g b : Nat) (hdim : 1 ≤ dim) (hg : 1 ≤ g)
    (hb : find_block_dim dim g = some b) : b ∣ dim ∧ 1 ≤ b ∧ b ≤ dim := by
  obtain ⟨b', hb', hmod, h1, h2⟩ := find_block_dim_divisibility dim g hdim hg
  rw [hb] at hb'
  have : b = b' := by
    simpa using hb'
  subst this
  exact ⟨Nat.dvd_of_mod_eq_zero hmod, h1, h2⟩

/-- C5: with block dimensions produced by `find_block_dim`, the grid covers
the image exactly: `grid_width * block_width = width` and
`grid_height * block_height = height` with no remainder, every block's
bounding box stays inside the image, and every pixel lies in exactly one of
the `nblocks` bounding boxes (no gaps, no overlaps, no partial edge blocks). -/
theorem grid_coverage (w h g bw bh : Nat) (hw : 1 ≤ w) (hh : 1 ≤ h) (hg : 1 ≤ g)
    (hbw : find_block_dim w g = some bw) (hbh : find_block_dim h g = some bh) :
    grid_width w bw * bw = w ∧ grid_height h bh * bh = h ∧
    (∀ n, n < nblocks (grid_width w bw) (grid_height h bh) →
      (get_bbox_at_pos (grid_width w bw) bw bh n).2.2.1 ≤ w ∧
      (get_bbox_at_pos (grid_width w bw) bw bh n).2.2.2 ≤ h) ∧
    (∀ x y, x < w → y < h →
      ∃! n, n < nblocks (grid_width w bw) (grid_height h bh) ∧
        inBBox (get_bbox_at_pos (grid_width w bw) bw bh n) x y) := by
  obtain ⟨hdvdw, hbw1, hbwle⟩ := find_block_dim_divides w g bw hw hg hbw
  obtain ⟨hdvdh, hbh1, hbhle⟩ := find_block_dim_divides h g bh hh hg hbh
  have hgww : grid_width w bw * bw = w := Nat.div_mul_cancel hdvdw
  have hghh : grid_height h bh * bh = h := Nat.div_mul_cancel hdvdh
  have hgwpos : 0 < grid_width w bw := Nat.div_pos hbwle hbw1
  have hghpos : 0 < grid_height h bh := Nat.div_pos hbhle hbh1
  refine ⟨hgww, hghh, ?_, ?_⟩
  · intro n hn
    unfold get_bbox_at_pos
    have hmod : n % grid_width w bw < grid_width w bw := Nat.mod_lt n hgwpos
    have hdiv : n / grid_width w bw < grid_height h bh := by
      rw [Nat.div_lt_iff_lt_mul hgwpos, Nat.mul_comm]
      exact hn
    constructor
    · show n % grid_width w bw * bw + bw ≤ w
      calc n % grid_width w bw * bw + bw = (n % grid_width w bw + 1) * bw :=
        (Nat.succ_mul _ _).symm
      _ ≤ grid_width w bw * bw := Nat.mul_le_mul_right bw hmod
      _ = w := hgww
    · show n / grid_width w bw * bh + bh ≤ h
      calc n / grid_width w bw * bh + bh = (n / grid_width w bw + 1) * bh :=
        (Nat.succ_mul _ _).symm
      _ ≤ grid_height h bh * bh := Nat.mul_le_mul_right bh hdiv
      _ = h := hghh
  · intro x y hx hy
    exact bbox_tiling (grid_width w bw) (grid_height h bh) bw bh x y hbw1 hbh1
      hgwpos (by rw [hgww]; exact hx) (by rw [hghh]; exact hy)

/-- Witness for C5 on a 4-wide, 2-high image with granularity 1
(`find_block_dim` gives 1 × 1 blocks). -/
theorem grid_coverage_witness :
    find_block_dim 4 1 = some 1 ∧ find_block_dim 2 1 = some 1 ∧
    (grid_width 4 1 * 1 = 4 ∧ grid_height 2 1 * 1 = 2 ∧
    (∀ n, n < nblocks (grid_width 4 1) (grid_height 2 1) →
      (get_bbox_at_pos (grid_width 4 1) 1 1 n).2.2.1 ≤ 4 ∧
      (get_bbox_at_pos (grid_width 4 1) 1 1 n).2.2.2 ≤ 2) ∧
    (∀ x y, x < 4 → y < 2 →
      ∃! n, n < nblocks (grid_width 4 1) (grid_height 2 1) ∧
        inBBox (get_bbox_at_pos (grid_width 4 1) 1 1 n) x y)) := by
  have h4 : find_block_dim 4 1 = some 1 :=
    (find_block_dim_eq 4 1 (by norm_num) (by norm_num)).trans (by decide)
  have h2 : find_block_dim 2 1 = some 1 :=
    (find_block_dim_eq 2 1 (by norm_num) (by norm_num)).trans (by decide)
  exact ⟨h4, h2, grid_coverage 4 2 1 1 1 (by decide) (by decide) (by decide) h4 h2⟩

/-- C6: `get_bbox_at_pos(n)` is the row-major bounding box with column
`n % grid_width` and row `n / grid_width`, in (left, top, right, bottom)
form with right and bottom exclusive. -/
theorem get_bbox_at_pos_formula (gw gh bw bh n : Nat) (_hn : n < gw * gh) :
    get_bbox_at_pos gw bw bh n =
      ((n % gw) * bw, (n / gw) * bh, (n % gw) * bw + bw, (n / gw) * bh + bh) := rfl

/-- Witness for C6 at `n = 5` in a 4 × 3 grid of 3 × 2 blocks. -/
theorem get_bbox_at_pos_formula_witness :
    5 < 4 * 3 ∧
    get_bbox_at_pos 4 3 2 5 =
      ((5 % 4) * 3, (5 / 4) * 2, (5 % 4) * 3 + 3, (5 / 4) * 2 + 2) :=
  ⟨by decide, get_bbox_at_pos_formula 4 3 3 2 5 (by decide)⟩

/-- C7 counterexample: the claim says block extraction fails with an
`OutOfRange` error for indices outside `[0, nblocks)`.  The code has no bounds
check at all: at the out-of-range index `12` (a 4 × 3 grid of 3 × 2 blocks has
`nblocks = 12`), `get_bbox_at_pos` succeeds and returns the box `(0, 6, 3, 8)`,
whose top edge `6` already lies at the bottom of the 6-pixel-high image. -/
theorem get_bbox_no_bounds_check :
    nblocks 4 3 ≤ 12 ∧ get_bbox_at_pos 4 3 2 12 = (0, 6, 3, 8) ∧
      3 * 2 ≤ (get_bbox_at_pos 4 3 2 12).2.1 := by
  refine ⟨by decide, rfl, by decide⟩

/-- C7 (amended): no index check is performed; `get_bbox_at_pos` (and hence
`get_block_at_pos`, which crops at that box) is total and always returns the
row-major formula box.  For every `n ≥ nblocks` the returned box lies entirely
below the image: its top coordinate is at least the image height
`grid_height * block_height`. -/
theorem get_bbox_out_of_range_total (gw gh bw bh n : Nat) (hgw : 0 < gw)
    (hn : nblocks gw gh ≤ n) :
    get_bbox_at_pos gw bw bh n =
      ((n % gw) * bw, (n / gw) * bh, (n % gw) * bw + bw, (n / gw) * bh + bh) ∧
    gh * bh ≤ (get_bbox_at_pos gw bw bh n).2.1 := by
  refine ⟨rfl, ?_⟩
  have hdiv : gh ≤ n / gw := by
    rw [Nat.le_div_iff_mul_le hgw]
    calc gh * gw = gw * gh := Nat.mul_comm gh gw
    _ ≤ n := hn
  show gh * bh ≤ n / gw * bh
  exact Nat.mul_le_mul_right bh hdiv

/-- Witness for the amended C7 at `n = 14` in a 4 × 3 grid. -/
theorem get_bbox_out_of_range_total_witness :
    0 < 4 ∧ nblocks 4 3 ≤ 14 ∧
    (get_bbox_at_pos 4 3 2 14 =
      ((14 % 4) * 3, (14 / 4) * 2, (14 % 4) * 3 + 3, (14 / 4) * 2 + 2) ∧
    3 * 2 ≤ (get_bbox_at_pos 4 3 2 14).2.1) :=
  ⟨by decide, by decide, get_bbox_out_of_range_total 4 3 3 2 14 (by decide) (by decide)⟩

/-!
### Color reducer theorems
-/

/-- Behaviour of the palette scan: starting from a current best entry, the
scan either keeps it (when nothing in the remaining list is strictly closer)
or returns the first element of the remaining list attaining the minimum
difference, which is strictly closer than the starting best and strictly
closer than everything before it. -/
theorem best_palette_scan_spec (colordiff : Color → Color → ℚ) (avg : Color) :
    ∀ (l : List Color) (best : Color),
      (best_palette_scan colordiff avg l best (colordiff best avg) = best ∧
        ∀ q ∈ l, colordiff best avg ≤ colordiff q avg) ∨
      (∃ i, ∃ hi : i < l.length,
        best_palette_scan colordiff avg l best (colordiff best avg) = l[i] ∧
        colordiff (l[i]) avg < colordiff best avg ∧
        (∀ q ∈ l, colordiff (l[i]) avg ≤ colordiff q avg) ∧
        (∀ j, ∀ hj : j < i,
          colordiff (l[i]) avg < colordiff (l[j]) avg)) := by
  intro l
  induction l with
  | nil =>
    intro best
    left
    exact ⟨rfl, fun q hq => absurd hq (List.not_mem_nil q)⟩
  | cons p rest ih =>
    intro best
    rw [best_palette_scan]
    by_cases hcmp : colordiff p avg < colordiff best avg
    · rw [if_pos hcmp]
      rcases ih p with ⟨heq, hall⟩ | ⟨i, hi, heq, hlt, hmin, hfirst⟩
      · right
        refine ⟨0, by simp, ?_, ?_, ?_, ?_⟩
        · simpa using heq
        · simpa using hcmp
        · intro q hq
          rcases List.mem_cons.1 hq with rfl | hq'
          · simp
          · simpa using hall q hq'
        · intro j hj
          omega
      · right
        refine ⟨i + 1, by simpa using Nat.succ_lt_succ hi, ?_, ?_, ?_, ?_⟩
        · simpa using heq
        · simpa using Trans.trans hlt hcmp
        · intro q hq
          rcases List.mem_cons.1 hq with rfl | hq'
          · simpa using le_of_lt hlt
          · simpa using hmin q hq'
        · intro j hj
          match j, hj with
          | 0, _ => simpa using hlt
          | k + 1, hj => simpa using hfirst k (by omega)
    · rw [if_neg hcmp]
      rcases ih best with ⟨heq, hall⟩ | ⟨i, hi, heq, hlt, hmin, hfirst⟩
      · left
        refine ⟨heq, fun q hq => ?_⟩
        rcases List.mem_cons.1 hq with rfl | hq'
        · exact le_of_not_lt hcmp
        · exact hall q hq'
      · right
        refine ⟨i + 1, by simpa using Nat.succ_lt_succ hi, ?_, ?_, ?_, ?_⟩
        · simpa using heq
        · simpa using hlt
        · intro q hq
          rcases List.mem_cons.1 hq with rfl | hq'
          · simpa using le_trans (le_of_lt hlt) (le_of_not_lt hcmp)
          · simpa using hmin q hq'
        · intro j hj
          match j, hj with
          | 0, _ => simpa using lt_of_lt_of_le hlt (le_of_not_lt hcmp)
          | k + 1, hj => simpa using hfirst k (by omega)

/-- C8: with a non-empty palette, `avg_color` returns a palette entry
unmodified, namely the one minimizing `colordiff(entry, mean)`, and on ties
the entry with the smallest index wins (everything at a smaller index is
strictly farther away, because the scan replaces the best only on a strictly
smaller difference). -/
theorem avg_color_palette_first_min (colordiff : Color → Color → ℚ)
    (p0 : Color) (rest : List Color) (pixels : List (Nat × Nat × Nat)) :
    ∃ i, ∃ hi : i < (p0 :: rest).length,
      avg_color (p0 :: rest) colordiff pixels = (p0 :: rest)[i] ∧
      (∀ q ∈ p0 :: rest,
        colordiff ((p0 :: rest)[i]) (avg_color_mean pixels) ≤
          colordiff q (avg_color_mean pixels)) ∧
      (∀ j, ∀ hj : j < i,
        colordiff ((p0 :: rest)[i]) (avg_color_mean pixels) <
          colordiff ((p0 :: rest)[j]) (avg_color_mean pixels)) := by
  have hdef : avg_color (p0 :: rest) colordiff pixels =
      best_palette_scan colordiff (avg_color_mean pixels) rest p0
        (colordiff p0 (avg_color_mean pixels)) := rfl
  rcases best_palette_scan_spec colordiff (avg_color_mean pixels) rest p0 with
    ⟨heq, hall⟩ | ⟨i, hi, heq, hlt, hmin, hfirst⟩
  · refine ⟨0, by simp, ?_, ?_, ?_⟩
    · simpa [hdef] using heq
    · intro q hq
      rcases List.mem_cons.1 hq with rfl | hq'
      · simp
      · simpa using hall q hq'
    · intro j hj
      omega
  · refine ⟨i + 1, by simpa using Nat.succ_lt_succ hi, ?_, ?_, ?_⟩
    · simpa [hdef] using heq
    · intro q hq
      rcases List.mem_cons.1 hq with rfl | hq'
      · simpa using le_of_lt hlt
      · simpa using hmin q hq'
    · intro j hj
      match j, hj with
      | 0, _ => simpa using hlt
      | k + 1, hj => simpa using hfirst k (by omega)

/-- The per-pixel accumulation `avg += p[c] / size` equals adding
`(sum of the channel) / size` to the accumulator, for any fixed divisor. -/
theorem avg_fold_eq (s : ℚ) (l : List (Nat × Nat × Nat)) :
    ∀ a : Color,
      l.foldl (fun acc p => (acc.1 + (p.1 : ℚ) / s, acc.2.1 + (p.2.1 : ℚ) / s,
        acc.2.2 + (p.2.2 : ℚ) / s)) a =
      (a.1 + (l.map (fun p => ((p.1 : ℚ)))).sum / s,
       a.2.1 + (l.map (fun p => ((p.2.1 : ℚ)))).sum / s,
       a.2.2 + (l.map (fun p => ((p.2.2 : ℚ)))).sum / s) := by
  induction l with
  | nil =>
    intro a
    simp
  | cons p rest ih =>
    intro a
    simp only [List.foldl_cons, List.map_cons, List.sum_cons, ih]
    refine Prod.ext_iff.2 ⟨?_, Prod.ext_iff.2 ⟨?_, ?_⟩⟩ <;>
      simp only [add_div, add_assoc]

/-- The accumulated mean equals the direct channel-wise mean
`(channel sum) / (pixel count)` exactly (over the rationals the per-pixel
division ordering does not matter). -/
theorem avg_color_mean_eq (pixels : List (Nat × Nat × Nat)) :
    avg_color_mean pixels =
      ((pixels.map (fun p => ((p.1 : ℚ)))).sum / (pixels.length : ℚ),
       (pixels.map (fun p => ((p.2.1 : ℚ)))).sum / (pixels.length : ℚ),
       (pixels.map (fun p => ((p.2.2 : ℚ)))).sum / (pixels.length : ℚ)) := by
  unfold avg_color_mean
  rw [avg_fold_eq]
  simp

/-- `roundHalfEven` really rounds to a nearest integer. -/
theorem roundHalfEven_nearest (q : ℚ) : |q - (roundHalfEven q : ℚ)| ≤ 1 / 2 := by
  have h1 : (⌊q⌋ : ℚ) ≤ q := Int.floor_le q
  have h2 : q < ⌊q⌋ + 1 := Int.lt_floor_add_one q
  unfold roundHalfEven
  split_ifs with hlt hgt heven
  · rw [abs_of_nonneg (by linarith)]
    linarith
  · push_cast
    rw [abs_of_nonpos (by linarith)]
    linarith
  · rw [abs_of_nonneg (by linarith)]
    linarith
  · push_cast
    rw [abs_of_nonpos (by linarith)]
    linarith

/-- C9 (amended): in the current implementation (core.py), the no-palette
block color is the channel-wise exact mean rounded half-to-even (a
nearest-integer rounding, each channel within 1/2 of the mean).  The
historical duplicates instead truncate — see the counterexample. -/
theorem pixelate_block_color_rounds_mean (pixels : List (Nat × Nat × Nat)) :
    pixelate_block_color pixels =
      (roundHalfEven ((pixels.map (fun p => ((p.1 : ℚ)))).sum / (pixels.length : ℚ)),
       roundHalfEven ((pixels.map (fun p => ((p.2.1 : ℚ)))).sum / (pixels.length : ℚ)),
       roundHalfEven ((pixels.map (fun p => ((p.2.2 : ℚ)))).sum / (pixels.length : ℚ))) ∧
    |(pixels.map (fun p => ((p.1 : ℚ)))).sum / (pixels.length : ℚ) -
        ((pixelate_block_color pixels).1 : ℚ)| ≤ 1 / 2 ∧
    |(pixels.map (fun p => ((p.2.1 : ℚ)))).sum / (pixels.length : ℚ) -
        ((pixelate_block_color pixels).2.1 : ℚ)| ≤ 1 / 2 ∧
    |(pixels.map (fun p => ((p.2.2 : ℚ)))).sum / (pixels.length : ℚ) -
        ((pixelate_block_color pixels).2.2 : ℚ)| ≤ 1 / 2 := by
  have hdef : avg_color [] colordiff_rgb pixels = avg_color_mean pixels := rfl
  have hmean := avg_color_mean_eq pixels
  have heq : pixelate_block_color pixels =
      (roundHalfEven ((pixels.map (fun p => ((p.1 : ℚ)))).sum / (pixels.length : ℚ)),
       roundHalfEven ((pixels.map (fun p => ((p.2.1 : ℚ)))).sum / (pixels.length : ℚ)),
       roundHalfEven ((pixels.map (fun p => ((p.2.2 : ℚ)))).sum / (pixels.length : ℚ))) := by
    unfold pixelate_block_color
    rw [hdef, hmean]
  refine ⟨heq, ?_, ?_, ?_⟩ <;>
    rw [heq] <;> exact roundHalfEven_nearest _

/-- C9 counterexample: the historical no-palette branch
(`return int(avg_r), int(avg_g), int(avg_b)` in src/pixel_art.py and
src/pixel_artist/pixel_artist.py) truncates instead of rounding to nearest.
On a 4-pixel block with three `(1,1,1)` pixels and one `(0,0,0)` pixel the
channel mean is `3/4`; truncation yields `0`, which is farther than `1/2`
from the mean, so it is not a nearest-integer rounding (both
round-half-to-even and round-half-up give `1`). -/
theorem avg_color_legacy_truncates :
    avg_color_legacy [(1,1,1), (1,1,1), (1,1,1), (0,0,0)] = (0, 0, 0) ∧
    avg_color_mean [(1,1,1), (1,1,1), (1,1,1), (0,0,0)] = (3/4, 3/4, 3/4) ∧
    ¬(|(3 / 4 : ℚ) - ((0 : ℤ) : ℚ)| ≤ 1 / 2) ∧
    roundHalfEven (3 / 4 : ℚ) = 1 := by
  have hmean : avg_color_mean [(1,1,1), (1,1,1), (1,1,1), (0,0,0)] = (3/4, 3/4, 3/4) := by
    rw [avg_color_mean_eq]
    norm_num
  refine ⟨?_, hmean, ?_, ?_⟩
  · unfold avg_color_legacy
    rw [hmean]
    norm_num [intTrunc]
  · rw [Int.cast_zero, sub_zero, abs_of_nonneg (by norm_num : (0:ℚ) ≤ 3/4)]
    norm_num
  · unfold roundHalfEven
    norm_num [Int.floor_eq_iff]

end PixelArtist
